import Mathlib

set_option autoImplicit false

/-! Verification of the two table engines of the repository:
the double-key (two-level) hash table of `double_key_table.py`
and the dynamic trie hash table of `infinite_hash_table.py`. -/

namespace Tables

/-! ## Dynamic trie hash table (`infinite_hash_table.py`)

Keys are modelled as lists of character codes (`ord` values), so a Python
string `"ab"` is `[97, 98]`.  A slot of a node's 27-entry table is either
`None`, a `(key, value)` tuple, or a nested `InfiniteHashTable` instance. -/

mutual
/-- A node of the infinite hash table: `level`, the 27-entry `table`, and the
running `count` (an `Int`, since Python integers can go negative). -/
inductive InfiniteHashTable (V : Type) : Type where
  | mk (level : Nat) (table : List (IHTSlot V)) (count : Int) : InfiniteHashTable V

/-- One slot of a node's table: `None`, a `(key, value)` tuple, or a sub-table. -/
inductive IHTSlot (V : Type) : Type where
  | empty : IHTSlot V
  | leaf (key : List Nat) (val : V) : IHTSlot V
  | sub (t : InfiniteHashTable V) : IHTSlot V
end

/-- Returns true iff the slot is not `None` (used to model
`for item in item.table: if item is not None: ...`). -/
def IHTSlot.occupied {V : Type} : IHTSlot V → Bool
  | .empty => false
  | _ => true

namespace InfiniteHashTable

variable {V : Type}

/-- Constant `TABLE_SIZE = 27` from the source. -/
def TABLE_SIZE : Nat := 27

def level : InfiniteHashTable V → Nat
  | .mk l _ _ => l

def table : InfiniteHashTable V → List (IHTSlot V)
  | .mk _ t _ => t

def count : InfiniteHashTable V → Int
  | .mk _ _ c => c

/-- Hash function of the trie, `InfiniteHashTable.hash`: `ord(key[level]) % (TABLE_SIZE-1)` when the key
is long enough, else the terminal slot `TABLE_SIZE-1`. -/
def hash (lvl : Nat) (key : List Nat) : Nat :=
  if lvl < key.length then key.getD lvl 0 % (TABLE_SIZE - 1) else TABLE_SIZE - 1

/-- Constructor `__init__(level)`: a fresh node with 27 empty slots and count 0. -/
def emptyTable (lvl : Nat) : InfiniteHashTable V :=
  .mk lvl (List.replicate TABLE_SIZE .empty) 0

/-- Model of `__getitem__`, three-valued: `.error ()` is a raised `KeyError`,
`.ok none` is the implicit `return None` reached when the slot holds a leaf
whose key differs from the request, `.ok (some v)` is a returned value.
The first argument is recursion fuel (the Python code recurses without a
structural bound); `none` means the fuel ran out. -/
def getitem : Nat → InfiniteHashTable V → List Nat → Option (Except Unit (Option V))
  | 0, _, _ => none
  | fuel + 1, .mk lvl tbl _, key =>
    match tbl.getD (hash lvl key) .empty with
    | .empty => some (.error ())
    | .sub c => getitem fuel c key
    | .leaf k0 v0 => if k0 = key then some (.ok (some v0)) else some (.ok none)

/-- The action of `__getitem__` on the slot it resolves, with `fuel` left for
recursion into a sub-table. -/
def slotGet (fuel : Nat) : IHTSlot V → List Nat → Option (Except Unit (Option V))
  | .empty, _ => some (.error ())
  | .leaf k0 v0, key => if k0 = key then some (.ok (some v0)) else some (.ok none)
  | .sub c, key => getitem fuel c key

/-- Model of `__setitem__`: place in an empty slot, recurse into a sub-table
(unconditionally incrementing this node's count), overwrite a matching leaf
in place, or split a conflicting leaf into a new sub-table at `level+1`.
`none` means the fuel ran out. -/
def setitem : Nat → InfiniteHashTable V → List Nat → V → Option (InfiniteHashTable V)
  | 0, _, _, _ => none
  | fuel + 1, .mk lvl tbl cnt, key, value =>
    match tbl.getD (hash lvl key) .empty with
    | .empty => some (.mk lvl (tbl.set (hash lvl key) (.leaf key value)) (cnt + 1))
    | .sub c =>
      match setitem fuel c key value with
      | none => none
      | some c' => some (.mk lvl (tbl.set (hash lvl key) (.sub c')) (cnt + 1))
    | .leaf k0 v0 =>
      if k0 = key then some (.mk lvl (tbl.set (hash lvl key) (.leaf key value)) cnt)
      else
        match setitem fuel (emptyTable (lvl + 1)) key value with
        | none => none
        | some c1 =>
          match setitem fuel c1 k0 v0 with
          | none => none
          | some c2 => some (.mk lvl (tbl.set (hash lvl key) (.sub c2)) (cnt + 1))

/-- The first non-`None` entry of a table, if any (the collapse loop of
`__delitem__`). -/
def firstOccupied (tbl : List (IHTSlot V)) : Option (IHTSlot V) :=
  tbl.find? IHTSlot.occupied

/-- The collapse step of `__delitem__` when the sub-table is down to one item:
`for item in item.table: if item is not None: self.table[pos] = item; break`.
When the loop finds nothing, the slot keeps the sub-table. -/
def collapseSlot (c : InfiniteHashTable V) : IHTSlot V :=
  match firstOccupied c.table with
  | some s => s
  | none => .sub c

/-- The slot written back by `__delitem__` after a recursive delete into a
sub-table `c'`: cleared when `len(c') == 0`, the first remaining entry when
`len(c') == 1`, otherwise the sub-table itself. -/
def slotAfterDelete (c' : InfiniteHashTable V) : IHTSlot V :=
  if c'.count = 0 then .empty
  else if c'.count = 1 then collapseSlot c'
  else .sub c'

/-- Model of `__delitem__`: `.error ()` is a raised `KeyError`; note that a leaf whose
key differs from the request falls off the end of the function, returning
successfully without modifying anything.  `none` means the fuel ran out. -/
def delitem : Nat → InfiniteHashTable V → List Nat → Option (Except Unit (InfiniteHashTable V))
  | 0, _, _ => none
  | fuel + 1, .mk lvl tbl cnt, key =>
    match tbl.getD (hash lvl key) .empty with
    | .empty => some (.error ())
    | .sub c =>
      match delitem fuel c key with
      | none => none
      | some (.error e) => some (.error e)
      | some (.ok c') =>
        some (.ok (.mk lvl (tbl.set (hash lvl key) (slotAfterDelete c')) (cnt - 1)))
    | .leaf k0 _ =>
      if k0 = key then some (.ok (.mk lvl (tbl.set (hash lvl key) .empty) (cnt - 1)))
      else some (.ok (.mk lvl tbl cnt))

/-- Model of `get_location`: the sequence of slot indices from this node to the key's
leaf; raises `KeyError` on an empty slot or a mismatched leaf. -/
def get_location : Nat → InfiniteHashTable V → List Nat → Option (Except Unit (List Nat))
  | 0, _, _ => none
  | fuel + 1, .mk lvl tbl _, key =>
    match tbl.getD (hash lvl key) .empty with
    | .empty => some (.error ())
    | .sub c =>
      match get_location fuel c key with
      | none => none
      | some (.error e) => some (.error e)
      | some (.ok l) => some (.ok (hash lvl key :: l))
    | .leaf k0 _ =>
      if k0 = key then some (.ok [hash lvl key]) else some (.error ())

/-- The body of the `for i in range(TABLE_SIZE)` loop of `sort_keys`, over the
remaining loop indices `idxs`: visits slot `(i+97) % TABLE_SIZE`, skipping the
terminal slot; a leaf appends its key, a sub-table recurses through `recur`
(instantiated with `sort_keys` at the remaining fuel). -/
def sortLoop (recur : InfiniteHashTable V → List (List Nat) → Option (Option (List (List Nat))))
    (tbl : List (IHTSlot V)) : List Nat → List (List Nat) →
    Option (Option (List (List Nat)))
  | [], current => some (some current)
  | i :: rest, current =>
    if (i + 97) % TABLE_SIZE = TABLE_SIZE - 1 then sortLoop recur tbl rest current
    else
      match tbl.getD ((i + 97) % TABLE_SIZE) .empty with
      | .empty => sortLoop recur tbl rest current
      | .sub c =>
        match recur c current with
        | none => none
        | some none => some none
        | some (some current') => sortLoop recur tbl rest current'
      | .leaf k _ => sortLoop recur tbl rest (current ++ [k])

/-- Model of `sort_keys(current)`: appends the terminal slot's key first (failing —
modelled `some none` — if that slot holds a sub-table, because in Python
`self.table[TABLE_SIZE-1][0]` then indexes an `InfiniteHashTable` with the
integer 0 and raises), then walks the slots in the order `(i+97) % 27` for
`i = 0..26`.  The outer `none` means the fuel ran out. -/
def sort_keys : Nat → InfiniteHashTable V → List (List Nat) →
    Option (Option (List (List Nat)))
  | 0, _, _ => none
  | fuel + 1, .mk _ tbl _, current =>
    match tbl.getD (TABLE_SIZE - 1) .empty with
    | .sub _ => some none
    | .empty => sortLoop (sort_keys fuel) tbl (List.range TABLE_SIZE) current
    | .leaf k _ => sortLoop (sort_keys fuel) tbl (List.range TABLE_SIZE) (current ++ [k])

mutual
/-- Specification-side: the number of leaves reachable under a node
(the quantity `count` is intended to track). -/
def numLeaves : InfiniteHashTable V → Nat
  | .mk _ tbl _ => slotsLeaves tbl

/-- Total number of leaves in a list of slots. -/
def slotsLeaves : List (IHTSlot V) → Nat
  | [] => 0
  | s :: rest => slotLeaves s + slotsLeaves rest

/-- Number of leaves in one slot. -/
def slotLeaves : IHTSlot V → Nat
  | .empty => 0
  | .leaf _ _ => 1
  | .sub c => numLeaves c
end

mutual
/-- Specification-side well-formedness of a node: the table has 27 slots, the
count equals the number of reachable leaves, and every sub-table is itself
well-formed with count at least 2. -/
def wfB : InfiniteHashTable V → Bool
  | .mk _ tbl cnt => tbl.length == TABLE_SIZE && cnt == (slotsLeaves tbl : Int) && slotsWf tbl

/-- All slots of a list are well-formed. -/
def slotsWf : List (IHTSlot V) → Bool
  | [] => true
  | s :: rest => slotWf s && slotsWf rest

/-- Well-formedness of one slot. -/
def slotWf : IHTSlot V → Bool
  | .empty => true
  | .leaf _ _ => true
  | .sub c => decide (2 ≤ c.count) && wfB c
end

/-- Well-formed trie table state. -/
def WF (t : InfiniteHashTable V) : Prop := wfB t = true

instance (t : InfiniteHashTable V) : Decidable (WF t) := by
  unfold WF; infer_instance

/-! ### Basic lemmas about the trie model -/

theorem hash_lt_TABLE_SIZE (lvl : Nat) (key : List Nat) : hash lvl key < TABLE_SIZE := by
  unfold hash TABLE_SIZE
  split
  · exact Nat.lt_succ_of_lt (Nat.mod_lt _ (by norm_num))
  · norm_num

theorem slot_getD_set_self (l : List (IHTSlot V)) (i : Nat) (s : IHTSlot V)
    (h : i < l.length) : (l.set i s).getD i .empty = s := by
  simp [List.getD_eq_getElem?_getD, List.getElem?_set_self, h]

theorem slot_getD_set_ne (l : List (IHTSlot V)) (i j : Nat) (s : IHTSlot V)
    (h : j ≠ i) : (l.set i s).getD j .empty = l.getD j .empty := by
  simp [List.getD_eq_getElem?_getD, List.getElem?_set_ne (Ne.symm h)]

theorem slot_getD_replicate (n i : Nat) :
    ((List.replicate n (.empty : IHTSlot V)).getD i .empty) = .empty := by
  rcases lt_or_ge i n with h | h
  · simp [List.getD_eq_getElem?_getD, List.getElem?_replicate, h]
  · simp [List.getD_eq_getElem?_getD, List.getElem?_eq_none, h]

theorem getitem_succ (g : Nat) (lvl : Nat) (tbl : List (IHTSlot V)) (cnt : Int)
    (key : List Nat) :
    getitem (g + 1) (.mk lvl tbl cnt) key = slotGet g (tbl.getD (hash lvl key) .empty) key := by
  cases h : tbl.getD (hash lvl key) .empty <;> simp only [getitem, slotGet, h]

theorem getitem_mono {g g' : Nat} {t : InfiniteHashTable V} {key : List Nat}
    {r : Except Unit (Option V)} (hg : g ≤ g') (h : getitem g t key = some r) :
    getitem g' t key = some r := by
  induction g generalizing g' t r with
  | zero => simp [getitem] at h
  | succ g ih =>
    obtain ⟨g', rfl⟩ : ∃ m, g' = m + 1 := ⟨g' - 1, by omega⟩
    obtain ⟨lvl, tbl, cnt⟩ := t
    rw [getitem_succ] at h ⊢
    cases hs : tbl.getD (hash lvl key) .empty with
    | empty => rw [hs] at h; exact h
    | leaf k0 v0 => rw [hs] at h; exact h
    | sub c =>
      rw [hs] at h
      exact ih (by omega) h

theorem slotGet_mono {g g' : Nat} {s : IHTSlot V} {key : List Nat}
    {r : Except Unit (Option V)} (hg : g ≤ g') (h : slotGet g s key = some r) :
    slotGet g' s key = some r := by
  cases s with
  | empty => exact h
  | leaf k0 v0 => exact h
  | sub c => exact getitem_mono hg h

theorem slotLeaves_getD_le (l : List (IHTSlot V)) (i : Nat) :
    slotLeaves (l.getD i .empty) ≤ slotsLeaves l := by
  induction l generalizing i with
  | nil => simp [slotLeaves]
  | cons a rest ih =>
    cases i with
    | zero => simp [slotsLeaves]
    | succ m =>
      calc slotLeaves ((a :: rest).getD (m + 1) .empty)
          = slotLeaves (rest.getD m .empty) := by simp
        _ ≤ slotsLeaves rest := ih m
        _ ≤ slotsLeaves (a :: rest) := by simp only [slotsLeaves]; omega

theorem slotsLeaves_set (l : List (IHTSlot V)) (i : Nat) (s : IHTSlot V)
    (h : i < l.length) :
    slotsLeaves (l.set i s) + slotLeaves (l.getD i .empty)
      = slotsLeaves l + slotLeaves s := by
  induction l generalizing i with
  | nil => simp at h
  | cons a rest ih =>
    cases i with
    | zero => simp [slotsLeaves]; omega
    | succ m =>
      have := ih m (by simpa using h)
      simp only [List.set_cons_succ, slotsLeaves, List.getD_cons_succ]
      omega

theorem slotsWf_getD (l : List (IHTSlot V)) (i : Nat) (h : slotsWf l = true) :
    slotWf (l.getD i .empty) = true := by
  induction l generalizing i with
  | nil => simp [slotWf]
  | cons a rest ih =>
    simp only [slotsWf, Bool.and_eq_true] at h
    cases i with
    | zero => simpa using h.1
    | succ m => simpa using ih m h.2

theorem slotsWf_set (l : List (IHTSlot V)) (i : Nat) (s : IHTSlot V)
    (hl : slotsWf l = true) (hs : slotWf s = true) : slotsWf (l.set i s) = true := by
  induction l generalizing i with
  | nil => simp [slotsWf]
  | cons a rest ih =>
    simp only [slotsWf, Bool.and_eq_true] at hl
    cases i with
    | zero => simp [slotsWf, hl.2, hs]
    | succ m => simp [slotsWf, hl.1, ih m hl.2]

theorem wfB_iff (lvl : Nat) (tbl : List (IHTSlot V)) (cnt : Int) :
    wfB (.mk lvl tbl cnt) = true
      ↔ tbl.length = TABLE_SIZE ∧ cnt = (slotsLeaves tbl : Int) ∧ slotsWf tbl = true := by
  simp [wfB, Bool.and_eq_true, and_assoc]

theorem slotWf_sub_iff (c : InfiniteHashTable V) :
    slotWf (.sub c) = true ↔ 2 ≤ c.count ∧ wfB c = true := by
  simp [slotWf, Bool.and_eq_true]

theorem wfB_count (t : InfiniteHashTable V) (h : wfB t = true) :
    t.count = (numLeaves t : Int) := by
  obtain ⟨lvl, tbl, cnt⟩ := t
  exact ((wfB_iff lvl tbl cnt).1 h).2.1

/-- If every slot other than `j` is empty and slot `j` holds an occupied `s`,
the collapse loop finds `s`. -/
theorem firstOccupied_unique (l : List (IHTSlot V)) (j : Nat) (s : IHTSlot V)
    (hj : l.getD j .empty = s) (hs : s.occupied = true)
    (hother : ∀ i, i ≠ j → l.getD i .empty = .empty) :
    firstOccupied l = some s := by
  induction l generalizing j with
  | nil =>
    exfalso
    have : s = .empty := by simpa using hj.symm
    rw [this] at hs; simp [IHTSlot.occupied] at hs
  | cons a rest ih =>
    cases j with
    | zero =>
      have ha : a = s := by simpa using hj
      subst ha
      simp [firstOccupied, List.find?_cons, hs]
    | succ m =>
      have ha : a = .empty := by simpa using hother 0 (by simp)
      subst ha
      have : firstOccupied rest = some s := by
        refine ih m (by simpa using hj) ?_
        intro i hi
        simpa using hother (i + 1) (by omega)
      simpa [firstOccupied, List.find?_cons, IHTSlot.occupied] using this

/-- A well-formed occupied slot holds at least one leaf. -/
theorem slotLeaves_pos_of_occupied (s : IHTSlot V) (hwf : slotWf s = true)
    (hs : s ≠ .empty) : 1 ≤ slotLeaves s := by
  cases s with
  | empty => exact absurd rfl hs
  | leaf k v => simp [slotLeaves]
  | sub c =>
    obtain ⟨hc2, hcwf⟩ := (slotWf_sub_iff c).1 hwf
    have hcount := wfB_count c hcwf
    rw [hcount] at hc2
    have : 2 ≤ numLeaves c := by exact_mod_cast hc2
    simp only [slotLeaves]
    omega

/-- In a well-formed slot list whose leaves all sit at slot `pos`, every other
slot is empty. -/
theorem slots_empty_of_leaves_le (l : List (IHTSlot V)) (pos : Nat)
    (hwf : slotsWf l = true)
    (hle : slotsLeaves l ≤ slotLeaves (l.getD pos .empty)) :
    ∀ i, i ≠ pos → l.getD i .empty = .empty := by
  induction l generalizing pos with
  | nil => intro i _; simp
  | cons a rest ih =>
    simp only [slotsWf, Bool.and_eq_true] at hwf
    intro i hi
    cases pos with
    | zero =>
      simp only [List.getD_cons_zero, slotsLeaves] at hle
      obtain ⟨m, rfl⟩ : ∃ m, i = m + 1 := ⟨i - 1, by omega⟩
      simp only [List.getD_cons_succ]
      by_contra hne
      have h1 := slotLeaves_pos_of_occupied _ (slotsWf_getD rest m hwf.2) hne
      have h2 := slotLeaves_getD_le rest m
      omega
    | succ m =>
      have hrest : slotsLeaves rest ≤ slotLeaves (rest.getD m .empty) := by
        simp only [List.getD_cons_succ, slotsLeaves] at hle
        omega
      cases i with
      | zero =>
        simp only [List.getD_cons_zero]
        by_contra hne
        have h1 := slotLeaves_pos_of_occupied _ hwf.1 hne
        have h2 := slotLeaves_getD_le rest m
        simp only [List.getD_cons_succ, slotsLeaves] at hle
        omega
      | succ j =>
        simp only [List.getD_cons_succ]
        exact ih m hwf.2 hrest j (by omega)

theorem count_mk (lvl : Nat) (tbl : List (IHTSlot V)) (cnt : Int) :
    count (.mk lvl tbl cnt) = cnt := rfl

theorem table_mk (lvl : Nat) (tbl : List (IHTSlot V)) (cnt : Int) :
    table (.mk lvl tbl cnt) = tbl := rfl

/-- Any execution of `__delitem__` that returns normally leaves the node's
count unchanged (the silent fall-through on a mismatched leaf) or decrements
it by exactly one. -/
theorem delitem_count {df : Nat} {t t' : InfiniteHashTable V} {k : List Nat}
    (h : delitem df t k = some (.ok t')) :
    t'.count = t.count ∨ t'.count = t.count - 1 := by
  cases df with
  | zero => simp [delitem] at h
  | succ d =>
    obtain ⟨lvl, tbl, cnt⟩ := t
    cases hslot : tbl.getD (hash lvl k) .empty with
    | empty => simp only [delitem, hslot] at h; simp at h
    | leaf k0 v0 =>
      simp only [delitem, hslot] at h
      by_cases hk0 : k0 = k
      · rw [if_pos hk0] at h
        simp only [Option.some_inj, Except.ok.injEq] at h
        right; rw [← h, count_mk, count_mk]
      · rw [if_neg hk0] at h
        simp only [Option.some_inj, Except.ok.injEq] at h
        left; rw [← h]
    | sub c =>
      simp only [delitem, hslot] at h
      cases hrec : delitem d c k with
      | none => rw [hrec] at h; simp at h
      | some r =>
        cases r with
        | error e => rw [hrec] at h; simp at h
        | ok c' =>
          rw [hrec] at h
          simp only [Option.some_inj, Except.ok.injEq] at h
          right; rw [← h, count_mk, count_mk]

/-- If the delete of a sub-table returned normally, its count stayed at
least `count - 1`. -/
theorem delitem_count_ge {df : Nat} {t t' : InfiniteHashTable V} {k : List Nat}
    (h : delitem df t k = some (.ok t')) : t.count - 1 ≤ t'.count := by
  rcases delitem_count h with h' | h' <;> omega

/-- Whenever a sub-table still has a positive count after a delete, the slot
written back by `__delitem__` is occupied. -/
theorem slotAfterDelete_occupied (c' : InfiniteHashTable V) (h : 1 ≤ c'.count) :
    (slotAfterDelete c').occupied = true := by
  unfold slotAfterDelete
  rw [if_neg (by omega)]
  by_cases h1 : c'.count = 1
  · rw [if_pos h1]
    unfold collapseSlot
    cases hfo : firstOccupied c'.table with
    | none => simp [IHTSlot.occupied]
    | some s => exact List.find?_some hfo
  · rw [if_neg h1]; simp [IHTSlot.occupied]

/-- In a well-formed node holding exactly one leaf, every stored key's value
is found directly at the slot selected by the collapse loop of
`__delitem__`. -/
theorem collapse_safe_of_wf_one (t : InfiniteHashTable V) (hwf : WF t)
    (h1 : t.count = 1) (g : Nat) (k2 : List Nat) (v2 : V)
    (hget : getitem g t k2 = some (.ok (some v2))) :
    slotGet g (collapseSlot t) k2 = some (.ok (some v2)) := by
  obtain ⟨lvl, tbl, cnt⟩ := t
  obtain ⟨hlen, hcnt, hslots⟩ := (wfB_iff lvl tbl cnt).1 hwf
  rw [count_mk] at h1
  have hS : slotsLeaves tbl = 1 := by
    have : (slotsLeaves tbl : Int) = 1 := by omega
    exact_mod_cast this
  obtain ⟨g', rfl⟩ : ∃ m, g = m + 1 := by
    cases g with
    | zero => simp [getitem] at hget
    | succ m => exact ⟨m, rfl⟩
  rw [getitem_succ] at hget
  cases hslot : tbl.getD (hash lvl k2) .empty with
  | empty => rw [hslot] at hget; simp [slotGet] at hget
  | sub c =>
    exfalso
    have hcwf := slotsWf_getD tbl (hash lvl k2) hslots
    rw [hslot] at hcwf
    obtain ⟨hc2, hcb⟩ := (slotWf_sub_iff c).1 hcwf
    have hcc := wfB_count c hcb
    have h2 : 2 ≤ numLeaves c := by
      rw [hcc] at hc2; exact_mod_cast hc2
    have hle := slotLeaves_getD_le tbl (hash lvl k2)
    rw [hslot] at hle
    simp only [slotLeaves] at hle
    omega
  | leaf k0 v0 =>
    rw [hslot] at hget
    simp only [slotGet] at hget
    by_cases hk0 : k0 = k2
    · rw [if_pos hk0] at hget
      simp only [Option.some_inj, Except.ok.injEq, Option.some_inj] at hget
      subst hk0; subst hget
      have hle : slotsLeaves tbl ≤ slotLeaves (tbl.getD (hash lvl k0) .empty) := by
        rw [hslot]; simp only [slotLeaves]; omega
      have hempty := slots_empty_of_leaves_le tbl (hash lvl k0) hslots hle
      have hfo : firstOccupied tbl = some (.leaf k0 v0) :=
        firstOccupied_unique tbl (hash lvl k0) _ hslot (by simp [IHTSlot.occupied]) hempty
      unfold collapseSlot
      rw [table_mk, hfo]
      simp [slotGet]
    · rw [if_neg hk0] at hget; simp at hget

/-- Core frame property of `__delitem__` on well-formed tables: a delete that
returns normally preserves the lookup result of every other stored key, and a
result node down to count 1 answers every stored key directly at the slot the
collapse loop would select. -/
theorem delete_preserves (df : Nat) :
    ∀ (t t' : InfiniteHashTable V) (k : List Nat),
      WF t → delitem df t k = some (.ok t') →
      (∀ (gf : Nat) (k' : List Nat) (v' : V), k' ≠ k →
          getitem gf t k' = some (.ok (some v')) →
          getitem gf t' k' = some (.ok (some v'))) ∧
      (t'.count = 1 → ∀ (g : Nat) (k2 : List Nat) (v2 : V),
          getitem g t' k2 = some (.ok (some v2)) →
          slotGet g (collapseSlot t') k2 = some (.ok (some v2))) := by
  induction df with
  | zero => intro t t' k _ hdel; simp [delitem] at hdel
  | succ d ih =>
    intro t t' k hwf hdel
    obtain ⟨lvl, tbl, cnt⟩ := t
    obtain ⟨hlen, hcnt, hslots⟩ := (wfB_iff lvl tbl cnt).1 hwf
    have hpos : hash lvl k < tbl.length := by rw [hlen]; exact hash_lt_TABLE_SIZE lvl k
    cases hslot : tbl.getD (hash lvl k) .empty with
    | empty => simp only [delitem, hslot] at hdel; simp at hdel
    | leaf k0 v0 =>
      simp only [delitem, hslot] at hdel
      by_cases hk0 : k0 = k
      · rw [if_pos hk0] at hdel
        simp only [Option.some_inj, Except.ok.injEq] at hdel
        subst hdel
        constructor
        · intro gf k' v' hne hget
          obtain ⟨g, rfl⟩ : ∃ m, gf = m + 1 := by
            cases gf with
            | zero => simp [getitem] at hget
            | succ m => exact ⟨m, rfl⟩
          rw [getitem_succ] at hget ⊢
          by_cases hpp : hash lvl k' = hash lvl k
          · exfalso
            rw [hpp, hslot] at hget
            simp only [slotGet] at hget
            rw [if_neg (by rw [hk0]; exact fun h => hne h.symm)] at hget
            simp at hget
          · rw [slot_getD_set_ne _ _ _ _ hpp]
            exact hget
        · intro h1 g k2 v2 hget2
          rw [count_mk] at h1
          have hcnt2 : cnt = 2 := by omega
          have hS : slotsLeaves tbl = 2 := by
            have : (slotsLeaves tbl : Int) = 2 := by omega
            exact_mod_cast this
          have hset := slotsLeaves_set tbl (hash lvl k) .empty hpos
          rw [hslot] at hset
          simp only [slotLeaves] at hset
          refine collapse_safe_of_wf_one _ ?_ ?_ g k2 v2 hget2
          · refine (wfB_iff _ _ _).2 ⟨by simp [hlen], ?_, slotsWf_set _ _ _ hslots (by simp [slotWf])⟩
            have : slotsLeaves (tbl.set (hash lvl k) .empty) = 1 := by omega
            rw [this]; omega
          · rw [count_mk]; omega
      · rw [if_neg hk0] at hdel
        simp only [Option.some_inj, Except.ok.injEq] at hdel
        subst hdel
        constructor
        · intro gf k' v' _ hget; exact hget
        · intro h1 g k2 v2 hget2
          exact collapse_safe_of_wf_one _ hwf h1 g k2 v2 hget2
    | sub c =>
      simp only [delitem, hslot] at hdel
      have hcwf := slotsWf_getD tbl (hash lvl k) hslots
      rw [hslot] at hcwf
      obtain ⟨hc2, hcb⟩ := (slotWf_sub_iff c).1 hcwf
      cases hrec : delitem d c k with
      | none => rw [hrec] at hdel; simp at hdel
      | some r =>
        cases r with
        | error e => rw [hrec] at hdel; simp at hdel
        | ok c' =>
          rw [hrec] at hdel
          simp only [Option.some_inj, Except.ok.injEq] at hdel
          subst hdel
          obtain ⟨ihi, ihii⟩ := ih c c' k hcb hrec
          have hge1 : 1 ≤ c'.count := by
            have := delitem_count_ge hrec; omega
          constructor
          · intro gf k' v' hne hget
            obtain ⟨g, rfl⟩ : ∃ m, gf = m + 1 := by
              cases gf with
              | zero => simp [getitem] at hget
              | succ m => exact ⟨m, rfl⟩
            rw [getitem_succ] at hget ⊢
            by_cases hpp : hash lvl k' = hash lvl k
            · rw [hpp, hslot] at hget
              simp only [slotGet] at hget
              have hget' := ihi g k' v' hne hget
              rw [hpp, slot_getD_set_self _ _ _ hpos]
              by_cases h1 : c'.count = 1
              · rw [show slotAfterDelete c' = collapseSlot c' by
                  unfold slotAfterDelete; rw [if_neg (by omega), if_pos h1]]
                exact ihii h1 g k' v' hget'
              · rw [show slotAfterDelete c' = .sub c' by
                  unfold slotAfterDelete; rw [if_neg (by omega), if_neg h1]]
                exact hget'
            · rw [slot_getD_set_ne _ _ _ _ hpp]
              exact hget
          · intro h1 g k2 v2 hget2
            rw [count_mk] at h1
            have hS : slotsLeaves tbl = 2 := by
              have : (slotsLeaves tbl : Int) = 2 := by omega
              exact_mod_cast this
            have hcc := wfB_count c hcb
            have h2 : 2 ≤ numLeaves c := by
              rw [hcc] at hc2; exact_mod_cast hc2
            have hle : slotsLeaves tbl ≤ slotLeaves (tbl.getD (hash lvl k) .empty) := by
              rw [hslot]; simp only [slotLeaves]; omega
            have hempty := slots_empty_of_leaves_le tbl (hash lvl k) hslots hle
            obtain ⟨g', rfl⟩ : ∃ m, g = m + 1 := by
              cases g with
              | zero => simp [getitem] at hget2
              | succ m => exact ⟨m, rfl⟩
            rw [getitem_succ] at hget2
            by_cases hpp2 : hash lvl k2 = hash lvl k
            · rw [hpp2, slot_getD_set_self _ _ _ hpos] at hget2
              have hfo : firstOccupied (tbl.set (hash lvl k) (slotAfterDelete c'))
                  = some (slotAfterDelete c') := by
                refine firstOccupied_unique _ (hash lvl k) _
                  (slot_getD_set_self _ _ _ hpos) (slotAfterDelete_occupied c' hge1) ?_
                intro i hi
                rw [slot_getD_set_ne _ _ _ _ hi]
                exact hempty i hi
              unfold collapseSlot
              rw [table_mk, hfo]
              exact slotGet_mono (Nat.le_succ g') hget2
            · exfalso
              rw [slot_getD_set_ne _ _ _ _ hpp2, hempty _ hpp2] at hget2
              simp [slotGet] at hget2

end InfiniteHashTable

/-! ## Single-key linear-probing table -/

/-- Modelled from the spec: the class `LinearProbeTable` of
`data_structures/hash_table.py` is a dependency of `double_key_table.py` whose
source is not part of the repository snapshot.  Section 4.1 of the spec gives
its contract: at most one slot per key; `set` occupies the key's slot
(incrementing the count only if the key is new); `delete` clears the slot and
must leave later keys findable; `get`/`delete` on an absent key fail with
"key not found"; `keys()`/`values()` return all occupied slots in unspecified
order.  The backing array, probing sequence and resize policy are observable
only through that contract, so the table is modelled as the association list
of its occupied slots. -/
structure LinearProbeTable (K V : Type) where
  entries : List (K × V)

namespace LinearProbeTable

variable {K V : Type} [DecidableEq K]

/-- A fresh table with no occupied slots. -/
def empty : LinearProbeTable K V := ⟨[]⟩

/-- Model of `__getitem__`: the value stored at `k`, or `none` for a raised `KeyError`. -/
def lookup (t : LinearProbeTable K V) (k : K) : Option V :=
  (t.entries.find? fun p => decide (p.1 = k)).map Prod.snd

/-- Model of `__contains__`. -/
def contains (t : LinearProbeTable K V) (k : K) : Bool :=
  (t.lookup k).isSome

/-- Model of `__setitem__`: update the key's slot in place if present, otherwise occupy
a new slot. -/
def setItem (t : LinearProbeTable K V) (k : K) (v : V) : LinearProbeTable K V :=
  if t.contains k then ⟨t.entries.map fun p => if p.1 = k then (k, v) else p⟩
  else ⟨t.entries ++ [(k, v)]⟩

/-- Model of `__delitem__`: clear the key's slot, or `none` for a raised `KeyError`. -/
def delItem (t : LinearProbeTable K V) (k : K) : Option (LinearProbeTable K V) :=
  if t.contains k then some ⟨t.entries.filter fun p => decide (p.1 ≠ k)⟩ else none

/-- Model of `__len__`: the number of occupied slots. -/
def lpLen (t : LinearProbeTable K V) : Nat := t.entries.length

/-- Model of `keys()`: all keys of occupied slots. -/
def keyList (t : LinearProbeTable K V) : List K := t.entries.map Prod.fst

theorem find?_map_replace (l : List (K × V)) (k : K) (v : V)
    (h : (l.find? fun p => decide (p.1 = k)).isSome = true) :
    ((l.map fun p => if p.1 = k then (k, v) else p).find? fun p => decide (p.1 = k))
      = some (k, v) := by
  induction l with
  | nil => simp at h
  | cons a rest ih =>
    by_cases ha : a.1 = k
    · simp [List.find?_cons, ha]
    · have hpa : (decide (a.1 = k)) = false := by simp [ha]
      simp only [List.find?_cons, hpa] at h
      simp only [List.map_cons, if_neg ha, List.find?_cons, hpa]
      exact ih h

theorem lookup_setItem_self (t : LinearProbeTable K V) (k : K) (v : V) :
    (t.setItem k v).lookup k = some v := by
  unfold setItem
  by_cases hc : t.contains k
  · rw [if_pos hc]
    have hfind : (t.entries.find? fun p => decide (p.1 = k)).isSome = true := by
      unfold contains lookup at hc
      simpa using hc
    unfold lookup
    simp only [find?_map_replace t.entries k v hfind]
    rfl
  · rw [if_neg hc]
    unfold contains lookup at hc
    have hnone : t.entries.find? (fun p => decide (p.1 = k)) = none := by
      cases h : t.entries.find? (fun p => decide (p.1 = k)) with
      | none => rfl
      | some p => rw [h] at hc; simp at hc
    unfold lookup
    rw [List.find?_append, hnone]
    simp

theorem delItem_not_mem_keyList (t t' : LinearProbeTable K V) (k : K)
    (h : t.delItem k = some t') : k ∉ t'.keyList := by
  unfold delItem at h
  by_cases hc : t.contains k
  · rw [if_pos hc] at h
    simp only [Option.some_inj] at h
    subst h
    unfold keyList
    intro hmem
    obtain ⟨p, hp, hpk⟩ := List.mem_map.1 hmem
    have := (List.mem_filter.1 hp).2
    simp only [decide_eq_true_eq] at this
    exact this hpk
  · rw [if_neg hc] at h; simp at h

end LinearProbeTable

/-! ## Double-key table (`double_key_table.py`) -/

/-- The double-key table: an outer `LinearProbeTable` whose values are inner
`LinearProbeTable`s, plus the running `count` of all (k1, k2) pairs.  `count`
only ever grows in the source, so `Nat` is faithful. -/
structure DoubleKeyTable (K1 K2 V : Type) where
  outer_table : LinearProbeTable K1 (LinearProbeTable K2 V)
  count : Nat

namespace DoubleKeyTable

variable {K1 K2 V : Type} [DecidableEq K1] [DecidableEq K2]

open LinearProbeTable

/-- Constructor `__init__`: empty outer table, count 0. -/
def emptyDKT : DoubleKeyTable K1 K2 V := ⟨LinearProbeTable.empty, 0⟩

/-- Model of `__setitem__` (lines 264–287): if `key1` is already in the outer table,
write through its inner table and increment the count only when `key2` was not
already present there; otherwise create a fresh inner table, attach it under
`key1`, write `key2`, and increment the count. -/
def setitem (d : DoubleKeyTable K1 K2 V) (k1 : K1) (k2 : K2) (v : V) :
    DoubleKeyTable K1 K2 V :=
  match d.outer_table.lookup k1 with
  | some inner =>
    let inc := !inner.contains k2
    ⟨d.outer_table.setItem k1 (inner.setItem k2 v),
      if inc then d.count + 1 else d.count⟩
  | none =>
    ⟨d.outer_table.setItem k1 (LinearProbeTable.empty.setItem k2 v), d.count + 1⟩

/-- Model of `__getitem__`: `self.outer_table[key1][key2]`, `none` for `KeyError`. -/
def getitem (d : DoubleKeyTable K1 K2 V) (k1 : K1) (k2 : K2) : Option V :=
  (d.outer_table.lookup k1).bind fun inner => inner.lookup k2

/-- Model of `__delitem__` (lines 320–341): delete `key2` from the inner table for
`key1` (propagating `KeyError`s), and when the inner table becomes empty
delete `key1` from the outer table.  The count is never decremented. -/
def delitem (d : DoubleKeyTable K1 K2 V) (k1 : K1) (k2 : K2) :
    Option (DoubleKeyTable K1 K2 V) :=
  match d.outer_table.lookup k1 with
  | none => none
  | some inner =>
    match inner.delItem k2 with
    | none => none
    | some inner' =>
      if inner'.lpLen = 0 then
        match (d.outer_table.setItem k1 inner').delItem k1 with
        | none => none
        | some outer' => some ⟨outer', d.count⟩
      else some ⟨d.outer_table.setItem k1 inner', d.count⟩

/-- Model of `__len__`: the maintained count. -/
def dkLen (d : DoubleKeyTable K1 K2 V) : Nat := d.count

/-- Model of `keys()` with no argument: all top-level keys. -/
def keysTop (d : DoubleKeyTable K1 K2 V) : List K1 := d.outer_table.keyList

/-- Model of `keys(k1)`: all bottom-level keys under `k1`, `none` for `KeyError`. -/
def keysUnder (d : DoubleKeyTable K1 K2 V) (k1 : K1) : Option (List K2) :=
  (d.outer_table.lookup k1).map LinearProbeTable.keyList

end DoubleKeyTable

/-! ## The claims -/

open InfiniteHashTable

/-- Claim C1: the spec says every successful `delete(k1, k2)` on the two-level
table decrements the maintained count, so `len()` equals N−M.  The code's
`__delitem__` never decrements `self.count`: after one insert and one delete
of the pair ("a", "b"), the pair is gone but `len()` still returns 1 instead
of 0. -/
theorem C1_delete_does_not_decrement_count :
    ((DoubleKeyTable.emptyDKT : DoubleKeyTable String String Nat).setitem
        "a" "b" 1).dkLen = 1 ∧
    ∃ d', ((DoubleKeyTable.emptyDKT : DoubleKeyTable String String Nat).setitem
        "a" "b" 1).delitem "a" "b" = some d' ∧
      d'.getitem "a" "b" = none ∧ d'.dkLen = 1 :=
  ⟨rfl, _, rfl, rfl, rfl⟩

/-- Claim C5: after inserting ("a","b")↦1 into the empty two-level table,
deleting it and re-inserting ("a","b")↦2, `get` does return the new value 2,
but `len()` is 2 instead of the 1 it was after the first insert, because
`__delitem__` never decremented the count and the re-insert increments it
again. -/
theorem C5_reinsert_double_counts :
    ((DoubleKeyTable.emptyDKT : DoubleKeyTable String String Nat).setitem
        "a" "b" 1).dkLen = 1 ∧
    ∃ d', ((DoubleKeyTable.emptyDKT : DoubleKeyTable String String Nat).setitem
        "a" "b" 1).delitem "a" "b" = some d' ∧
      (d'.setitem "a" "b" 2).getitem "a" "b" = some 2 ∧
      (d'.setitem "a" "b" 2).dkLen = 2 :=
  ⟨rfl, _, rfl, rfl, rfl⟩

/-- Claim C2: overwriting a key that lives inside a child node of the trie
table is claimed to leave `len()` unchanged, but `__setitem__` increments the
node count unconditionally on the sub-table branch: after inserting "ab" and
"ac" (two leaves) and re-setting "ab", the root count is 3 while only 2 leaves
are reachable, and the stored value was indeed overwritten in place. -/
theorem C2_overwrite_in_child_inflates_len :
    (((setitem 5 (emptyTable 0) [97, 98] (1 : Nat)).bind
        fun t => setitem 5 t [97, 99] 2).bind
        fun t => setitem 5 t [97, 98] 3).map count = some 3 ∧
    (((setitem 5 (emptyTable 0) [97, 98] (1 : Nat)).bind
        fun t => setitem 5 t [97, 99] 2).bind
        fun t => setitem 5 t [97, 98] 3).map numLeaves = some 2 ∧
    (((setitem 5 (emptyTable 0) [97, 98] (1 : Nat)).bind
        fun t => setitem 5 t [97, 99] 2).bind
        fun t => setitem 5 t [97, 98] 3).map (fun t => getitem 5 t [97, 98])
      = some (some (.ok (some 3))) :=
  ⟨rfl, rfl, rfl⟩

/-- Claim C3: on a trie table holding only "ab", the key "ac" reaches the
leaf for "ab" (same level-0 slot, different key).  `get_location` does raise
`KeyError` there, but `__getitem__` falls off the end and returns Python's
`None` (modelled `.ok none`), and `__delitem__` returns silently leaving the
table unchanged — neither raises the claimed key-not-found error. -/
theorem C3_mismatched_leaf_is_silent :
    ∃ t : InfiniteHashTable Nat, setitem 1 (emptyTable 0) [97, 98] 7 = some t ∧
      getitem 1 t [97, 99] = some (.ok none) ∧
      delitem 1 t [97, 99] = some (.ok t) ∧
      get_location 1 t [97, 99] = some (.error ()) :=
  ⟨_, rfl, rfl, rfl, rfl⟩

/-- Claim C4: `sort_keys` is claimed (also by its own docstring) to emit keys
in lexicographic order, visiting slots in the lexicographic order of the
characters that hash to them.  The loop maps `i` to slot `(i+97) % 27`, but
`hash` places characters at `ord(c) % 26`: slot 16 (visited first) holds "x"
while "a" sits at slot 19, so the table {"x", "a"} is emitted as
["x", "a"] — not in lexicographic order. -/
theorem C4_sort_keys_not_lexicographic :
    ((setitem 1 (emptyTable 0) [120] (1 : Nat)).bind
        fun t => setitem 1 t [97] 2).bind (fun t => sort_keys 1 t [])
      = some (some [[120], [97]]) ∧
    [[120], [97]] ≠ [[97], [120]] :=
  ⟨rfl, by decide⟩

/-- Claim C8: for each of the six insertion orders of "bob", "bobby" and "al"
(as character-code lists) into an empty trie table, `sort_keys` returns
exactly ["al", "bob", "bobby"]. -/
theorem C8_sort_keys_bob_bobby_al :
    (((setitem 9 (emptyTable 0) [98, 111, 98] (1 : Nat)).bind
        fun t => setitem 9 t [98, 111, 98, 98, 121] 2).bind
        fun t => setitem 9 t [97, 108] 3).bind (fun t => sort_keys 9 t [])
      = some (some [[97, 108], [98, 111, 98], [98, 111, 98, 98, 121]]) ∧
    (((setitem 9 (emptyTable 0) [98, 111, 98] (1 : Nat)).bind
        fun t => setitem 9 t [97, 108] 2).bind
        fun t => setitem 9 t [98, 111, 98, 98, 121] 3).bind (fun t => sort_keys 9 t [])
      = some (some [[97, 108], [98, 111, 98], [98, 111, 98, 98, 121]]) ∧
    (((setitem 9 (emptyTable 0) [98, 111, 98, 98, 121] (1 : Nat)).bind
        fun t => setitem 9 t [98, 111, 98] 2).bind
        fun t => setitem 9 t [97, 108] 3).bind (fun t => sort_keys 9 t [])
      = some (some [[97, 108], [98, 111, 98], [98, 111, 98, 98, 121]]) ∧
    (((setitem 9 (emptyTable 0) [98, 111, 98, 98, 121] (1 : Nat)).bind
        fun t => setitem 9 t [97, 108] 2).bind
        fun t => setitem 9 t [98, 111, 98] 3).bind (fun t => sort_keys 9 t [])
      = some (some [[97, 108], [98, 111, 98], [98, 111, 98, 98, 121]]) ∧
    (((setitem 9 (emptyTable 0) [97, 108] (1 : Nat)).bind
        fun t => setitem 9 t [98, 111, 98] 2).bind
        fun t => setitem 9 t [98, 111, 98, 98, 121] 3).bind (fun t => sort_keys 9 t [])
      = some (some [[97, 108], [98, 111, 98], [98, 111, 98, 98, 121]]) ∧
    (((setitem 9 (emptyTable 0) [97, 108] (1 : Nat)).bind
        fun t => setitem 9 t [98, 111, 98, 98, 121] 2).bind
        fun t => setitem 9 t [98, 111, 98] 3).bind (fun t => sort_keys 9 t [])
      = some (some [[97, 108], [98, 111, 98], [98, 111, 98, 98, 121]]) :=
  ⟨rfl, rfl, rfl, rfl, rfl, rfl⟩

/-- Claim C6: deleting the last remaining inner key `k2` under an outer key
`k1` of the two-level table removes `k1` from the outer table entirely, so
`k1` no longer appears in `keys()`. -/
theorem C6_delete_last_inner_removes_outer {K1 K2 V : Type}
    [DecidableEq K1] [DecidableEq K2]
    (d : DoubleKeyTable K1 K2 V) (k1 : K1) (k2 : K2) (v : V)
    (inner : LinearProbeTable K2 V)
    (hlook : d.outer_table.lookup k1 = some inner)
    (hone : inner.entries = [(k2, v)]) :
    ∃ d', d.delitem k1 k2 = some d' ∧ k1 ∉ d'.keysTop := by
  have hdelInner : inner.delItem k2 = some ⟨[]⟩ := by
    unfold LinearProbeTable.delItem LinearProbeTable.contains LinearProbeTable.lookup
    rw [hone]
    simp
  have hcont : ((d.outer_table.setItem k1 (⟨[]⟩ : LinearProbeTable K2 V)).contains k1)
      = true := by
    unfold LinearProbeTable.contains
    rw [LinearProbeTable.lookup_setItem_self]
    rfl
  have hdelOuter : (d.outer_table.setItem k1 (⟨[]⟩ : LinearProbeTable K2 V)).delItem k1
      = some ⟨(d.outer_table.setItem k1 ⟨[]⟩).entries.filter fun p => decide (p.1 ≠ k1)⟩ := by
    unfold LinearProbeTable.delItem
    rw [if_pos hcont]
  refine ⟨⟨⟨(d.outer_table.setItem k1 ⟨[]⟩).entries.filter fun p => decide (p.1 ≠ k1)⟩,
      d.count⟩, ?_, ?_⟩
  · unfold DoubleKeyTable.delitem
    simp [hlook, hdelInner, hdelOuter, LinearProbeTable.lpLen]
  · exact LinearProbeTable.delItem_not_mem_keyList _ _ _ hdelOuter

/-- Claim C6 witness: after inserting ("a","b")↦1 into the empty table, "b" is
the only inner key under "a"; deleting the pair removes "a" from `keys()`. -/
theorem C6_delete_last_inner_removes_outer_witness :
    ((DoubleKeyTable.emptyDKT : DoubleKeyTable String String Nat).setitem
        "a" "b" 1).outer_table.lookup "a" = some ⟨[("b", 1)]⟩ ∧
    ∃ d', ((DoubleKeyTable.emptyDKT : DoubleKeyTable String String Nat).setitem
        "a" "b" 1).delitem "a" "b" = some d' ∧ "a" ∉ d'.keysTop :=
  ⟨rfl, C6_delete_last_inner_removes_outer _ "a" "b" 1 ⟨[("b", 1)]⟩ rfl rfl⟩

/-- Claim C7: two keys that collide at level 0 but differ at level 1, inserted
into an empty trie table, end up in a child node at level 1 holding both, each
independently retrievable; deleting the first collapses the child back into a
direct leaf at the parent's slot, and `get_location` of the survivor has
length 1. -/
theorem C7_collision_split_and_collapse {V : Type} (k1 k2 : List Nat) (v1 v2 : V)
    (h0 : hash 0 k1 = hash 0 k2) (h1 : hash 1 k1 ≠ hash 1 k2) :
    ∃ t1 t2 c t3,
      setitem 3 (emptyTable 0) k1 v1 = some t1 ∧
      setitem 3 t1 k2 v2 = some t2 ∧
      t2.table.getD (hash 0 k2) .empty = .sub c ∧
      c.level = 1 ∧
      getitem 2 c k1 = some (.ok (some v1)) ∧
      getitem 2 c k2 = some (.ok (some v2)) ∧
      getitem 2 t2 k1 = some (.ok (some v1)) ∧
      getitem 2 t2 k2 = some (.ok (some v2)) ∧
      delitem 2 t2 k1 = some (.ok t3) ∧
      t3.table.getD (hash 0 k2) .empty = .leaf k2 v2 ∧
      get_location 1 t3 k2 = some (.ok [hash 0 k2]) := by
  have hne : k1 ≠ k2 := fun h => h1 (by rw [h])
  have h1' : hash 1 k2 ≠ hash 1 k1 := Ne.symm h1
  have hlenR : (List.replicate TABLE_SIZE (.empty : IHTSlot V)).length = TABLE_SIZE := by
    simp
  have hp : hash 0 k1 < (List.replicate TABLE_SIZE (.empty : IHTSlot V)).length := by
    rw [hlenR]; exact hash_lt_TABLE_SIZE 0 k1
  have hq1 : hash 1 k1
      < ((List.replicate TABLE_SIZE (.empty : IHTSlot V)).set (hash 1 k2)
          (.leaf k2 v2)).length := by
    rw [List.length_set, hlenR]; exact hash_lt_TABLE_SIZE 1 k1
  have hq2 : hash 1 k2 < (List.replicate TABLE_SIZE (.empty : IHTSlot V)).length := by
    rw [hlenR]; exact hash_lt_TABLE_SIZE 1 k2
  refine ⟨.mk 0 ((List.replicate TABLE_SIZE .empty).set (hash 0 k1) (.leaf k1 v1)) 1,
    .mk 0 ((List.replicate TABLE_SIZE .empty).set (hash 0 k1) (.sub
      (.mk 1 (((List.replicate TABLE_SIZE .empty).set (hash 1 k2) (.leaf k2 v2)).set
        (hash 1 k1) (.leaf k1 v1)) 2))) 2,
    .mk 1 (((List.replicate TABLE_SIZE .empty).set (hash 1 k2) (.leaf k2 v2)).set
      (hash 1 k1) (.leaf k1 v1)) 2,
    .mk 0 ((List.replicate TABLE_SIZE .empty).set (hash 0 k1) (.leaf k2 v2)) 1,
    ?_, ?_, ?_, rfl, ?_, ?_, ?_, ?_, ?_, ?_, ?_⟩
  · -- first insert: key lands in an empty slot
    simp only [setitem, emptyTable, slot_getD_replicate]
    norm_num
  · -- second insert: conflict at level 0, split into a level-1 child
    have egetD : ((List.replicate TABLE_SIZE (.empty : IHTSlot V)).set (hash 0 k1)
        (.leaf k1 v1)).getD (hash 0 k2) .empty = .leaf k1 v1 := by
      rw [← h0]; exact slot_getD_set_self _ _ _ hp
    simp only [setitem, emptyTable, egetD, if_neg hne, slot_getD_replicate,
      slot_getD_set_ne _ _ _ _ h1]
    rw [← h0, List.set_set]
    norm_num
  · -- the slot of the colliding keys holds the child
    rw [← h0]
    exact slot_getD_set_self _ _ _ hp
  · -- k1 retrievable from the child
    rw [getitem_succ, slot_getD_set_self _ _ _ hq1]
    simp [slotGet]
  · -- k2 retrievable from the child
    rw [getitem_succ, slot_getD_set_ne _ _ _ _ h1', slot_getD_set_self _ _ _ hq2]
    simp [slotGet]
  · -- k1 retrievable from the root
    rw [getitem_succ, slot_getD_set_self _ _ _ hp]
    show getitem 1 _ k1 = _
    rw [getitem_succ, slot_getD_set_self _ _ _ hq1]
    simp [slotGet]
  · -- k2 retrievable from the root
    rw [getitem_succ, ← h0, slot_getD_set_self _ _ _ hp]
    show getitem 1 _ k2 = _
    rw [getitem_succ, slot_getD_set_ne _ _ _ _ h1', slot_getD_set_self _ _ _ hq2]
    simp [slotGet]
  · -- deleting k1 collapses the child into a direct leaf
    have hcdel : delitem 1 (.mk 1 (((List.replicate TABLE_SIZE .empty).set (hash 1 k2)
        (.leaf k2 v2)).set (hash 1 k1) (.leaf k1 v1)) 2) k1
        = some (.ok (.mk 1 ((List.replicate TABLE_SIZE .empty).set (hash 1 k2)
            (.leaf k2 v2) |>.set (hash 1 k1) .empty) 1)) := by
      simp only [delitem, slot_getD_set_self _ _ _ hq1, if_pos rfl, List.set_set]
      norm_num
    have hfo : firstOccupied ((List.replicate TABLE_SIZE (.empty : IHTSlot V)).set
        (hash 1 k2) (.leaf k2 v2) |>.set (hash 1 k1) .empty)
        = some (.leaf k2 v2) := by
      refine firstOccupied_unique _ (hash 1 k2) _ ?_ (by simp [IHTSlot.occupied]) ?_
      · rw [slot_getD_set_ne _ _ _ _ h1', slot_getD_set_self _ _ _ hq2]
      · intro i hi
        by_cases hiq1 : i = hash 1 k1
        · subst hiq1
          refine slot_getD_set_self _ _ _ ?_
          rw [List.length_set, hlenR]
          exact hash_lt_TABLE_SIZE 1 k1
        · rw [slot_getD_set_ne _ _ _ _ hiq1, slot_getD_set_ne _ _ _ _ hi,
            slot_getD_replicate]
    simp only [delitem, slot_getD_set_self _ _ _ hp, slot_getD_set_self _ _ _ hq1,
      List.set_set]
    norm_num [slotAfterDelete, collapseSlot, count_mk, table_mk, hfo]
  · -- the parent's slot now holds the surviving leaf directly
    rw [← h0]
    exact slot_getD_set_self _ _ _ hp
  · -- get_location of the survivor is a single slot index
    have : ((List.replicate TABLE_SIZE (.empty : IHTSlot V)).set (hash 0 k1)
        (.leaf k2 v2)).getD (hash 0 k2) .empty = .leaf k2 v2 := by
      rw [← h0]; exact slot_getD_set_self _ _ _ hp
    simp only [get_location, this]
    simp

/-- Claim C7 witness: the keys "ab" and "ac" collide at level 0 (both hash to
19) and differ at level 1 (20 vs 21). -/
theorem C7_collision_split_and_collapse_witness :
    (hash 0 [97, 98] = hash 0 [97, 99] ∧ hash 1 [97, 98] ≠ hash 1 [97, 99]) ∧
    ∃ t1 t2 c t3,
      setitem 3 (emptyTable 0) [97, 98] (1 : Nat) = some t1 ∧
      setitem 3 t1 [97, 99] 2 = some t2 ∧
      t2.table.getD (hash 0 [97, 99]) .empty = .sub c ∧
      c.level = 1 ∧
      getitem 2 c [97, 98] = some (.ok (some 1)) ∧
      getitem 2 c [97, 99] = some (.ok (some 2)) ∧
      getitem 2 t2 [97, 98] = some (.ok (some 1)) ∧
      getitem 2 t2 [97, 99] = some (.ok (some 2)) ∧
      delitem 2 t2 [97, 98] = some (.ok t3) ∧
      t3.table.getD (hash 0 [97, 99]) .empty = .leaf [97, 99] 2 ∧
      get_location 1 t3 [97, 99] = some (.ok [hash 0 [97, 99]]) :=
  ⟨⟨by decide, by decide⟩,
    C7_collision_split_and_collapse [97, 98] [97, 99] 1 2 (by decide) (by decide)⟩

/-- Positive counterpart to claim C9: on a well-formed trie table (node counts
equal to the reachable leaves, sub-tables holding at least 2 of them), a
delete that returns normally — including one that collapses a child node back
into a leaf at the parent's slot — leaves `get` of every other stored key `k'`
returning the same value as before. -/
theorem delete_preserves_other_keys_of_wf {V : Type} (df gf : Nat)
    (t t' : InfiniteHashTable V) (k k' : List Nat) (vk v' : V)
    (hwf : WF t)
    (_hstored : getitem gf t k = some (.ok (some vk)))
    (hdel : delitem df t k = some (.ok t'))
    (hne : k' ≠ k)
    (hget : getitem gf t k' = some (.ok (some v'))) :
    getitem gf t' k' = some (.ok (some v')) :=
  (delete_preserves df t t' k hwf hdel).1 gf k' v' hne hget

/-- A well-formed trie table holding "ab"↦1 and "ac"↦2 in a level-1 child
node under root slot 19. -/
def c9t : InfiniteHashTable Nat :=
  .mk 0 ((List.replicate 27 .empty).set 19 (.sub (.mk 1
    (((List.replicate 27 .empty).set 21 (.leaf [97, 99] 2)).set 20
      (.leaf [97, 98] 1)) 2))) 2

/-- Instance of the positive counterpart: deleting "ab" from the well-formed
table holding "ab"↦1 and "ac"↦2 (a delete that collapses the level-1 child)
leaves `get("ac")` returning 2. -/
theorem delete_preserves_other_keys_of_wf_instance :
    WF c9t ∧ getitem 3 c9t [97, 99] = some (.ok (some 2)) ∧
    ∃ t', delitem 3 c9t [97, 98] = some (.ok t') ∧
      getitem 3 t' [97, 99] = some (.ok (some 2)) :=
  ⟨by decide, rfl, _, rfl,
    delete_preserves_other_keys_of_wf 3 3 c9t _ [97, 98] [97, 99] 1 2
      (by decide) rfl rfl (by decide) rfl⟩

/-- Claim C9: a successful delete is claimed to leave every other stored key's
`get` result unchanged.  The code violates this on a reachable state: insert
"ab"↦5, "aab"↦1, "aac"↦2; delete the absent key "aa|" (same slot path as
"aab" for two levels; the mismatched-leaf path returns silently, yet every
ancestor still decrements its count, leaving the level-1 child with count 2
but 3 reachable leaves); then the successful delete of the stored key "aab"
drives that child's count to 1 and the root collapses it, keeping only its
first occupied slot — the still-stored key "ab" is dropped, and `get("ab")`
changes from 5 to Python `None`. -/
theorem C9_successful_delete_loses_sibling_key :
    ∃ t3 t4 t5 : InfiniteHashTable Nat,
      ((setitem 9 (emptyTable 0) [97, 98] 5).bind fun t =>
          setitem 9 t [97, 97, 98] 1).bind (fun t => setitem 9 t [97, 97, 99] 2)
        = some t3 ∧
      WF t3 ∧
      getitem 9 t3 [97, 98] = some (.ok (some 5)) ∧
      delitem 9 t3 [97, 97, 124] = some (.ok t4) ∧
      getitem 9 t4 [97, 98] = some (.ok (some 5)) ∧
      getitem 9 t4 [97, 97, 98] = some (.ok (some 1)) ∧
      delitem 9 t4 [97, 97, 98] = some (.ok t5) ∧
      getitem 9 t5 [97, 98] = some (.ok none) :=
  ⟨_, _, _, rfl, by decide, rfl, rfl, rfl, rfl, rfl, rfl⟩

/-- Claim C10: the empty string hashes to the terminal slot 26 of the root,
and after `set("", v)` on an empty trie table, `get("")` returns `v` and
`get_location("")` returns `[26]`. -/
theorem C10_empty_string_key {V : Type} (v : V) :
    hash 0 ([] : List Nat) = 26 ∧
    ∃ t : InfiniteHashTable V, setitem 1 (emptyTable 0) [] v = some t ∧
      getitem 1 t [] = some (.ok (some v)) ∧
      get_location 1 t [] = some (.ok [26]) :=
  ⟨rfl, _, rfl, rfl, rfl⟩

/-- Claim C10 witness: the instance at value 7. -/
theorem C10_empty_string_key_witness :
    hash 0 ([] : List Nat) = 26 ∧
    ∃ t : InfiniteHashTable Nat, setitem 1 (emptyTable 0) [] 7 = some t ∧
      getitem 1 t [] = some (.ok (some 7)) ∧
      get_location 1 t [] = some (.ok [26]) :=
  C10_empty_string_key 7

end Tables
